import Mathlib

/-!
# Verification of libfreelan's IP network address core

Shallow embedding of `src/ip_network_address.cpp`,
`include/freelan/ip_network_address.hpp` and the stream primitives declared in
`src/stream_operations.hpp`.  Machine bytes are modelled as `Nat` values
(`Fin 256` / `Fin 65536` inside the concrete address types), C++ input streams
as an explicit position over an immutable character list, and the two
`boost::asio` address families as concrete structures together with an
`AddrFamily` record that plays the role of the C++ `AddressType` template
parameter (byte conversion, textual codec, token alphabet).

The implementations of `putback`, `read_ip_address` and `read_prefix_length`
live in `stream_operations.cpp`, which is not part of the given sources; those
three definitions are modelled from the specification and marked as such in
their doc comments.  Everything else is translated from the C++ sources.
-/

namespace Freelan

/-! ## Decimal and hexadecimal character primitives -/

/-- Numeric value of a decimal digit character (`c - '0'` in C). -/
def decVal (c : Char) : Nat := c.toNat - 48

/-- Fold a list of decimal digit characters into the number they denote,
most significant digit first (the effect of `boost::lexical_cast` on an
all-digit string, overflow aside). -/
def decToNat (s : List Char) : Nat :=
  s.foldl (fun a c => a * 10 + decVal c) 0

/-- Fuel-driven decimal printer core: prepends the decimal digits of `n` to
`acc`.  Structural recursion on the fuel keeps it kernel-reducible. -/
def toDecCore : Nat → Nat → List Char → List Char
  | 0, _, acc => acc
  | fuel + 1, n, acc =>
    let d := Nat.digitChar (n % 10)
    if n / 10 = 0 then d :: acc else toDecCore fuel (n / 10) (d :: acc)

/-- Decimal representation of a natural number, no leading zeros
(the effect of `os << std::dec << n` for an `unsigned int`). -/
def natToDec (n : Nat) : List Char := toDecCore (n + 1) n []

/-- Numeric value of a hexadecimal digit character. -/
def hexVal (c : Char) : Nat :=
  if c.isDigit then c.toNat - 48
  else if 'a' ≤ c ∧ c ≤ 'f' then c.toNat - 87
  else c.toNat - 55

/-- Is `c` a hexadecimal digit? -/
def isHexChar (c : Char) : Bool :=
  c.isDigit || ('a' ≤ c && c ≤ 'f') || ('A' ≤ c && c ≤ 'F')

/-- Fold hexadecimal digit characters into a number. -/
def hexToNat (s : List Char) : Nat :=
  s.foldl (fun a c => a * 16 + hexVal c) 0

/-- Fuel-driven hexadecimal printer core (lowercase digits). -/
def toHexCore : Nat → Nat → List Char → List Char
  | 0, _, acc => acc
  | fuel + 1, n, acc =>
    let d := Nat.digitChar (n % 16)
    if n / 16 = 0 then d :: acc else toHexCore fuel (n / 16) (d :: acc)

/-- Lowercase hexadecimal representation of a natural number. -/
def natToHex (n : Nat) : List Char := toHexCore (n + 1) n []

/-! ## The IPv4 address family

`boost::asio::ip::address_v4` is external to the repository; the spec (§3)
describes it as an opaque value convertible to/from a fixed 4-byte big-endian
representation and its canonical dotted-decimal textual form. -/

/-- Modelled from the spec: an IPv4 host address, §3 "canonical fixed-width
byte representation (4 bytes for IPv4)". -/
structure address_v4 where
  b0 : Fin 256
  b1 : Fin 256
  b2 : Fin 256
  b3 : Fin 256
deriving DecidableEq

/-- Big-endian byte sequence of an IPv4 address (`address_v4::to_bytes`). -/
def to_bytes_v4 (a : address_v4) : List Nat :=
  [a.b0.val, a.b1.val, a.b2.val, a.b3.val]

/-- Modelled from the spec: canonical dotted-decimal form
(`address_v4::to_string`). -/
def to_string_v4 (a : address_v4) : List Char :=
  natToDec a.b0.val ++ '.' :: (natToDec a.b1.val ++ '.' :: (natToDec a.b2.val ++ '.' :: natToDec a.b3.val))

/-- Split a character list at every `'.'`, keeping empty groups. -/
def splitDots : List Char → List (List Char)
  | [] => [[]]
  | c :: rest =>
    if c = '.' then [] :: splitDots rest
    else
      match splitDots rest with
      | t :: ts => (c :: t) :: ts
      | [] => [[c]]

/-- Parse one dotted-decimal octet: nonempty, all digits, value below 256. -/
def parseOctet (s : List Char) : Option (Fin 256) :=
  if s = [] then none
  else if s.all Char.isDigit then
    if h : decToNat s < 256 then some ⟨decToNat s, h⟩ else none
  else none

/-- Modelled from the spec: parse the canonical dotted-decimal form
(`address_v4::from_string`); `none` on any malformed input. -/
def from_string_v4 (s : List Char) : Option address_v4 :=
  match splitDots s with
  | [g0, g1, g2, g3] =>
    match parseOctet g0, parseOctet g1, parseOctet g2, parseOctet g3 with
    | some b0, some b1, some b2, some b3 => some ⟨b0, b1, b2, b3⟩
    | _, _, _, _ => none
  | _ => none

/-- Token alphabet of the IPv4 textual form (digits and dots), used by the
`read_ip_address<address_v4>` scanner. -/
def addr_char_v4 (c : Char) : Bool := c.isDigit || c = '.'

/-! ## The IPv6 address family

`boost::asio::ip::address_v6` likewise modelled from the spec: 16-byte
big-endian representation, standard colon-hexadecimal textual form with `::`
compression of the longest zero-group run. -/

/-- Modelled from the spec: an IPv6 host address as its eight 16-bit groups
(§3 "canonical fixed-width byte representation (… 16 for IPv6)"). -/
structure address_v6 where
  g0 : Fin 65536
  g1 : Fin 65536
  g2 : Fin 65536
  g3 : Fin 65536
  g4 : Fin 65536
  g5 : Fin 65536
  g6 : Fin 65536
  g7 : Fin 65536
deriving DecidableEq

/-- The eight 16-bit groups of an IPv6 address. -/
def groups_v6 (a : address_v6) : List Nat :=
  [a.g0.val, a.g1.val, a.g2.val, a.g3.val, a.g4.val, a.g5.val, a.g6.val, a.g7.val]

/-- Big-endian byte sequence of an IPv6 address (`address_v6::to_bytes`). -/
def to_bytes_v6 (a : address_v6) : List Nat :=
  (groups_v6 a).flatMap (fun g => [g / 256, g % 256])

/-- Split a character list at every `':'`, keeping empty groups. -/
def splitColons : List Char → List (List Char)
  | [] => [[]]
  | c :: rest =>
    if c = ':' then [] :: splitColons rest
    else
      match splitColons rest with
      | t :: ts => (c :: t) :: ts
      | [] => [[c]]

/-- Find the first occurrence of a double colon, returning the characters
before and after it. -/
def findDoubleColon : List Char → Option (List Char × List Char)
  | c :: d :: rest =>
    if c = ':' ∧ d = ':' then some ([], rest)
    else (findDoubleColon (d :: rest)).map (fun p => (c :: p.1, p.2))
  | _ => none

/-- Parse one colon-hexadecimal group: nonempty, all hex digits, below 2^16. -/
def parseHexGroup (s : List Char) : Option (Fin 65536) :=
  if s = [] then none
  else if s.all isHexChar then
    if h : hexToNat s < 65536 then some ⟨hexToNat s, h⟩ else none
  else none

/-- Build an IPv6 address from exactly eight groups. -/
def mkV6 : List (Fin 65536) → Option address_v6
  | [a, b, c, d, e, f, g, h] => some ⟨a, b, c, d, e, f, g, h⟩
  | _ => none

/-- Parse every colon-separated token as a hex group, failing if any token
is malformed (elementwise `Option` traversal). -/
def parseGroups : List (List Char) → Option (List (Fin 65536))
  | [] => some []
  | t :: ts =>
    match parseHexGroup t, parseGroups ts with
    | some g, some gs => some (g :: gs)
    | _, _ => none

/-- Modelled from the spec: parse the standard colon-hexadecimal form with at
most one `::` compression (`address_v6::from_string`); `none` on any
malformed input.  The IPv4-embedded notations are outside the spec's grammar
and not modelled. -/
def from_string_v6 (s : List Char) : Option address_v6 :=
  match findDoubleColon s with
  | none =>
    match parseGroups (splitColons s) with
    | some gs => if gs.length = 8 then mkV6 gs else none
    | none => none
  | some (l, r) =>
    match findDoubleColon r with
    | some _ => none
    | none =>
      let lg? := if l = [] then some [] else parseGroups (splitColons l)
      let rg? := if r = [] then some [] else parseGroups (splitColons r)
      match lg?, rg? with
      | some lg, some rg =>
        if lg.length + rg.length ≤ 7 then
          mkV6 (lg ++ List.replicate (8 - lg.length - rg.length) (0 : Fin 65536) ++ rg)
        else none
      | _, _ => none

/-- Join textual groups with single colon separators (the effect of
`List.intercalate [':']`). -/
def joinColon : List (List Char) → List Char
  | [] => []
  | [x] => x
  | x :: y :: rest => x ++ ':' :: joinColon (y :: rest)

/-- Does the character list contain two adjacent colons?  (Specification
device for reasoning about `findDoubleColon`.) -/
def hasAdjacentColons : List Char → Bool
  | c :: d :: rest => (decide (c = ':') && decide (d = ':')) || hasAdjacentColons (d :: rest)
  | _ => false

/-- Length of the zero-group run starting at index `i`. -/
def zeroRunAt (gs : List Nat) (i : Nat) : Nat :=
  ((gs.drop i).takeWhile (fun g => g = 0)).length

/-- Leftmost longest run of zero groups, if its length is at least two
(the runs `inet_ntop`-style printing compresses with `::`). -/
def bestZeroRun (gs : List Nat) : Option (Nat × Nat) :=
  let best := (List.range gs.length).foldl
    (fun acc i => if acc.2 < zeroRunAt gs i then (i, zeroRunAt gs i) else acc) (0, 0)
  if 2 ≤ best.2 then some best else none

/-- Modelled from the spec: canonical colon-hexadecimal form with `::`
compression of the leftmost longest zero run (`address_v6::to_string`). -/
def to_string_v6 (a : address_v6) : List Char :=
  let gs := groups_v6 a
  match bestZeroRun gs with
  | none => joinColon (gs.map natToHex)
  | some (i, l) =>
    joinColon ((gs.take i).map natToHex) ++
      ':' :: ':' :: joinColon ((gs.drop (i + l)).map natToHex)

/-- Token alphabet of the IPv6 textual form (hex digits, colons and dots),
used by the `read_ip_address<address_v6>` scanner. -/
def addr_char_v6 (c : Char) : Bool := isHexChar c || c = ':' || c = '.'

/-! ## The address-family capability

Stands for the C++ `AddressType` template parameter: byte conversion, the
textual codec and the token alphabet of `read_ip_address<AddressType>`. -/

/-- The interface the C++ code requires of an address family. -/
structure AddrFamily (α : Type) where
  to_bytes : α → List Nat
  to_string : α → List Char
  from_string : List Char → Option α
  addr_char : Char → Bool

/-- The `boost::asio::ip::address_v4` family. -/
def famV4 : AddrFamily address_v4 :=
  ⟨to_bytes_v4, to_string_v4, from_string_v4, addr_char_v4⟩

/-- The `boost::asio::ip::address_v6` family. -/
def famV6 : AddrFamily address_v6 :=
  ⟨to_bytes_v6, to_string_v6, from_string_v6, addr_char_v6⟩

/-! ## `base_ip_network_address` and its containment test -/

/-- `base_ip_network_address<AddressType>`: an address plus a prefix length
(`m_prefix_length` is a C++ `unsigned int`, represented as `Nat`).  The
constructor performs no validation, exactly as in the source. -/
structure base_ip_network_address (α : Type) where
  m_address : α
  m_prefix_length : Nat
deriving DecidableEq

/-- `ipv4_network_address` typedef. -/
abbrev ipv4_network_address := base_ip_network_address address_v4

/-- `ipv6_network_address` typedef. -/
abbrev ipv6_network_address := base_ip_network_address address_v6

/-- The all-zero IPv4 address (`address_v4()`). -/
def zero_v4 : address_v4 := ⟨0, 0, 0, 0⟩

/-- The all-zero IPv6 address (`address_v6()`). -/
def zero_v6 : address_v6 := ⟨0, 0, 0, 0, 0, 0, 0, 0⟩

/-- `ipv4_network_address::null()` / default construction. -/
def null_v4 : ipv4_network_address := ⟨zero_v4, 0⟩

/-- `ipv6_network_address::null()` / default construction. -/
def null_v6 : ipv6_network_address := ⟨zero_v6, 0⟩

/-- The byte loop of `base_ip_network_address::has_address`
(ip_network_address.cpp lines 94–112): walk network and probe bytes in
lockstep with the remaining prefix length; full-byte comparison while at
least 8 bits remain, then one masked comparison with
`mask = (0xFF >> prefix_len) ^ 0xFF` and stop. -/
def has_address_loop : List Nat → List Nat → Nat → Bool
  | nb :: nbs, ab :: abs, prefix_len =>
    if 8 ≤ prefix_len then
      if nb ≠ ab then false
      else has_address_loop nbs abs (prefix_len - 8)
    else
      let mask := (0xFF >>> prefix_len) ^^^ 0xFF
      if nb &&& mask ≠ ab &&& mask then false
      else true
  | _, _, _ => true

/-- `base_ip_network_address<AddressType>::has_address` (ip_network_address.cpp
lines 86–115). -/
def base_ip_network_address.has_address (fam : AddrFamily α)
    (self : base_ip_network_address α) (addr : α) : Bool :=
  has_address_loop (fam.to_bytes self.m_address) (fam.to_bytes addr) self.m_prefix_length

/-- The containment walk as the specification words it (§4.2 of the claim /
spec §4.1 steps 2–5): remaining ≥ 8 requires exact byte equality; remaining 0
at byte entry yields true; remaining in [1,8) compares under the byte mask
`0xFF << (8 - remaining)` and decides immediately. -/
def spec_contains : List Nat → List Nat → Nat → Bool
  | nb :: nbs, ab :: abs, remaining =>
    if 8 ≤ remaining then
      if nb = ab then spec_contains nbs abs (remaining - 8) else false
    else if remaining = 0 then true
    else
      if nb &&& ((0xFF <<< (8 - remaining)) &&& 0xFF) = ab &&& ((0xFF <<< (8 - remaining)) &&& 0xFF) then
        true
      else false
  | _, _, _ => true

/-! ## The polymorphic (union) network address -/

/-- `ip_network_address`: `boost::variant<ipv4_network_address,
ipv6_network_address>`. -/
inductive ip_network_address where
  | v4 (ina : ipv4_network_address)
  | v6 (ina : ipv6_network_address)
deriving DecidableEq

/-- `boost::asio::ip::address`: either family's host address. -/
inductive ip_address where
  | v4 (a : address_v4)
  | v6 (a : address_v6)
deriving DecidableEq

/-- `ip_network_address_has_address_visitor` applied through
`boost::apply_visitor` (ip_network_address.hpp lines 252–309): each overload
is `m_addr.is_v4() && ina.has_address(m_addr.to_v4())` (resp. `is_v6`/`to_v6`);
the short-circuit `&&` guards the `to_v4()`/`to_v6()` conversion, so a
family mismatch yields `false` without the conversion ever running. -/
def has_address_ip (ina : ip_network_address) (m_addr : ip_address) : Bool :=
  match ina with
  | .v4 n =>
    match m_addr with
    | .v4 a => n.has_address famV4 a
    | .v6 _ => false
  | .v6 n =>
    match m_addr with
    | .v6 a => n.has_address famV6 a
    | .v4 _ => false

/-- The iterator-range membership helper `has_address(begin, end, addr)`
(ip_network_address.hpp lines 318–328), over a sequence of union values. -/
def has_address_list : List ip_network_address → ip_address → Bool
  | [], _ => false
  | ina :: rest, addr =>
    if has_address_ip ina addr then true else has_address_list rest addr

/-! ## The input-stream model

A `std::istream` over an in-memory string: immutable character data, a read
position, and the `failbit`/`eofbit` status flags (`badbit` never arises in
this code).  `operator bool` on a stream tests `!fail`; `good()` additionally
requires `!eof`. -/

/-- An input stream positioned inside an immutable character sequence. -/
structure IStream where
  data : List Char
  pos : Nat
  fail : Bool
  eof : Bool
deriving DecidableEq

/-- A fresh stream over the given characters (`std::istringstream(s)`). -/
def mkStream (s : List Char) : IStream := ⟨s, 0, false, false⟩

/-- `is.good()`: no failbit and no eofbit. -/
def IStream.good (is : IStream) : Bool := !is.fail && !is.eof

/-- `static_cast<bool>(is)`: no failbit. -/
def IStream.toBool (is : IStream) : Bool := !is.fail

/-- `is.clear()`: reset the status flags. -/
def IStream.clear (is : IStream) : IStream := { is with fail := false, eof := false }

/-- `is.setstate(std::ios_base::failbit)`. -/
def IStream.setfail (is : IStream) : IStream := { is with fail := true }

/-- `is.peek()`: the next character without consuming it; at end of data it
sets the eofbit and yields nothing (EOF). -/
def IStream.peek (is : IStream) : Option Char × IStream :=
  match is.data[is.pos]? with
  | some c => (some c, is)
  | none => (none, { is with eof := true })

/-- `is.ignore()`: discard one character; at end of data it sets the eofbit. -/
def IStream.ignore (is : IStream) : IStream :=
  if is.pos < is.data.length then { is with pos := is.pos + 1 }
  else { is with eof := true }

/-- Consume the maximal run of characters satisfying `pred` starting at the
current position; scanning hits end-of-data exactly when the run extends to
the last character, in which case the eofbit is set. -/
def scanRun (pred : Char → Bool) (is : IStream) : IStream × List Char :=
  let run := (is.data.drop is.pos).takeWhile pred
  ({ is with
      pos := is.pos + run.length,
      eof := is.eof || decide (is.pos + run.length = is.data.length) }, run)

/-- Modelled from the spec: `putback(is, str)` of stream_operations.hpp lines
54–60 — its implementation (stream_operations.cpp) is not among the given
sources.  Spec §9: "on any parse failure, reset the marker to its value at
entry rather than relying on an implicit unread buffer"; the characters put
back are exactly the ones previously consumed, so the position marker moves
back by their count; the status flags are preserved around the operation. -/
def putback (is : IStream) (s : List Char) : IStream :=
  { is with pos := is.pos - s.length }

/-- Modelled from the spec: `read_ip_address<AddressType>(is, ip_address)` of
stream_operations.hpp lines 69–70 — its implementation
(stream_operations.cpp) is not among the given sources.  Per spec §4.1/§7 it
reads the family's textual address token (the maximal run over the family's
token alphabet) and fails with `MalformedAddress` — restoring the consumed
characters and setting the failbit — when the token does not match the
family's grammar.  Returns the stream and the out-parameter `ip_address`. -/
def read_ip_address (fam : AddrFamily α) (is : IStream) : IStream × List Char :=
  if is.good then
    let (is1, run) := scanRun fam.addr_char is
    match fam.from_string run with
    | some _ => (is1, run)
    | none => ((putback is1 run).setfail, [])
  else (is.setfail, [])

/-- Modelled from the spec: `read_prefix_length<AddressType>(is,
prefix_length)` of stream_operations.hpp lines 87–88 — its implementation
(stream_operations.cpp) is not among the given sources.  Per spec §6 the
prefix length is `decimal-digit+`: the maximal run of decimal digits, failing
with `MalformedPrefixLength` (failbit, nothing consumed) when it is empty;
trailing characters are left unconsumed. -/
def read_prefix_length (is : IStream) : IStream × List Char :=
  if is.good then
    let (is1, run) := scanRun Char.isDigit is
    if run = [] then (is1.setfail, [])
    else (is1, run)
  else (is.setfail, [])

/-- `read_ip_address_prefix_length<AddressType>` (ip_network_address.cpp
lines 57–83): address token, then `'/'` via `peek`/`ignore`, then the prefix
length; on the no-slash and bad-prefix failures the consumed characters are
put back and the failbit is set.  Returns the stream and the two
out-parameters. -/
def read_ip_address_prefix_length (fam : AddrFamily α) (is : IStream) :
    IStream × List Char × List Char :=
  if is.good then
    let (is1, ip_address) := read_ip_address fam is
    if is1.fail then (is1, ip_address, [])
    else if is1.good then
      match is1.peek with
      | (some c, is2) =>
        if c = '/' then
          let is3 := is2.ignore
          let (is4, prefix_length) := read_prefix_length is3
          if is4.fail then ((putback is4 (ip_address ++ ['/'])).setfail, ip_address, prefix_length)
          else (is4, ip_address, prefix_length)
        else ((putback is2 ip_address).setfail, ip_address, [])
      | (none, is2) => ((putback is2 ip_address).setfail, ip_address, [])
    else ((putback is1 ip_address).setfail, ip_address, [])
  else (is, [], [])

/-- `operator>>(std::istream&, base_ip_network_address<AddressType>&)`
(ip_network_address.cpp lines 120–132): on a successful read of both tokens,
assign `base_ip_network_address(AddressType::from_string(ip_address),
lexical_cast<unsigned int>(prefix_length))`; otherwise the reference `value`
is left untouched.  (After a successful read `from_string` cannot fail; the
`none` arm is the unreachable C++ `throw` path and also leaves `value`
untouched.) -/
def read_base_ip_network_address (fam : AddrFamily α) (is : IStream)
    (value : base_ip_network_address α) : IStream × base_ip_network_address α :=
  let (is1, ip_address, prefix_length) := read_ip_address_prefix_length fam is
  if is1.toBool then
    match fam.from_string ip_address with
    | some a => (is1, ⟨a, decToNat prefix_length⟩)
    | none => (is1, value)
  else (is1, value)

/-- `operator<<(std::ostream&, const base_ip_network_address<AddressType>&)`
(ip_network_address.cpp lines 137–141): the textual address, a literal `'/'`,
the decimal prefix length. -/
def format_net (fam : AddrFamily α) (value : base_ip_network_address α) : List Char :=
  fam.to_string value.m_address ++ '/' :: natToDec value.m_prefix_length

/-- `operator>>(std::istream&, ip_network_address&)` (ip_network_address.cpp
lines 146–175): attempt the IPv6 grammar, on success wrap and return; else
clear the stream and attempt the IPv4 grammar, on success wrap and return;
else clear the stream again and return it.  Each branch starts from a
default-constructed (null) family value. -/
def read_ip_network_address (is : IStream) (value : ip_network_address) :
    IStream × ip_network_address :=
  if is.toBool then
    let (is1, ina) := read_base_ip_network_address famV6 is null_v6
    if is1.toBool then (is1, .v6 ina)
    else
      let is2 := is1.clear
      if is2.toBool then
        let (is3, ina4) := read_base_ip_network_address famV4 is2 null_v4
        if is3.toBool then (is3, .v4 ina4)
        else (is3.clear, value)
      else (is2, value)
  else (is, value)

/-! ## Lemmas about the decimal printer -/

/-- The accumulator splits off the printed digits. -/
theorem toDecCore_append (fuel : Nat) :
    ∀ n acc, toDecCore fuel n acc = toDecCore fuel n [] ++ acc := by
  induction fuel with
  | zero => intro n acc; simp [toDecCore]
  | succ fuel ih =>
    intro n acc
    simp only [toDecCore]
    by_cases h : n / 10 = 0
    · simp [h]
    · simp only [if_neg h]
      rw [ih (n / 10) (Nat.digitChar (n % 10) :: acc),
        ih (n / 10) [Nat.digitChar (n % 10)], List.append_assoc]
      rfl

/-- Reading the printed decimal digits back gives the number, provided the
fuel covers all digits. -/
theorem decToNat_toDecCore (fuel : Nat) :
    ∀ n, n < 10 ^ fuel → decToNat (toDecCore fuel n []) = n := by
  induction fuel with
  | zero => intro n h; interval_cases n; simp [toDecCore, decToNat]
  | succ fuel ih =>
    intro n h
    simp only [toDecCore]
    by_cases h0 : n / 10 = 0
    · have hn : n < 10 := by omega
      simp only [if_pos h0, decToNat, List.foldl]
      have : decVal (Nat.digitChar (n % 10)) = n % 10 := by
        have h10 : n % 10 < 10 := Nat.mod_lt _ (by omega)
        revert h10
        have : ∀ k, k < 10 → decVal (Nat.digitChar k) = k := by decide
        exact this (n % 10)
      omega
    · simp only [if_neg h0]
      rw [toDecCore_append]
      have hdiv : n / 10 < 10 ^ fuel := by
        rw [Nat.div_lt_iff_lt_mul (by omega)]
        calc n < 10 ^ (fuel + 1) := h
          _ = 10 ^ fuel * 10 := by ring
      have hrec := ih (n / 10) hdiv
      have hval : decVal (Nat.digitChar (n % 10)) = n % 10 := by
        have : ∀ k, k < 10 → decVal (Nat.digitChar k) = k := by decide
        exact this (n % 10) (Nat.mod_lt _ (by omega))
      simp only [decToNat] at hrec ⊢
      rw [List.foldl_append]
      simp only [List.foldl, hrec, hval]
      omega

/-- Small fuel bound. -/
theorem lt_ten_pow_succ (n : Nat) : n < 10 ^ (n + 1) := by
  calc n < n + 1 := Nat.lt_succ_self n
    _ ≤ 10 ^ (n + 1) := Nat.le_of_lt (Nat.lt_pow_self (by omega) _)

/-- Decimal round trip. -/
theorem decToNat_natToDec (n : Nat) : decToNat (natToDec n) = n :=
  decToNat_toDecCore (n + 1) n (lt_ten_pow_succ n)

/-- A nonempty accumulator keeps the printed list nonempty. -/
theorem toDecCore_ne_nil (fuel : Nat) :
    ∀ n acc, acc ≠ [] → toDecCore fuel n acc ≠ [] := by
  induction fuel with
  | zero => intro n acc h; simpa [toDecCore] using h
  | succ fuel ih =>
    intro n acc h
    simp only [toDecCore]
    by_cases h0 : n / 10 = 0
    · simp [h0]
    · simp only [if_neg h0]
      exact ih (n / 10) _ (by simp)

/-- The decimal form of a number is never empty. -/
theorem natToDec_ne_nil (n : Nat) : natToDec n ≠ [] := by
  unfold natToDec toDecCore
  by_cases h0 : n / 10 = 0
  · simp [h0]
  · simp only [if_neg h0]
    exact toDecCore_ne_nil n (n / 10) _ (by simp)

/-- Every character the decimal printer emits is the digit character of a
value below ten. -/
theorem toDecCore_mem (fuel : Nat) :
    ∀ n acc c, c ∈ toDecCore fuel n acc →
      c ∈ acc ∨ ∃ k, k < 10 ∧ c = Nat.digitChar k := by
  induction fuel with
  | zero => intro n acc c h; exact Or.inl (by simpa [toDecCore] using h)
  | succ fuel ih =>
    intro n acc c h
    simp only [toDecCore] at h
    by_cases h0 : n / 10 = 0
    · rw [if_pos h0] at h
      rcases List.mem_cons.mp h with h | h
      · exact Or.inr ⟨n % 10, Nat.mod_lt _ (by omega), h⟩
      · exact Or.inl h
    · rw [if_neg h0] at h
      rcases ih (n / 10) _ c h with h | h
      · rcases List.mem_cons.mp h with h | h
        · exact Or.inr ⟨n % 10, Nat.mod_lt _ (by omega), h⟩
        · exact Or.inl h
      · exact Or.inr h

/-- Characters of a printed decimal number are decimal digits, and in
particular none of the grammar's separator characters. -/
theorem natToDec_chars {n : Nat} {c : Char} (h : c ∈ natToDec n) :
    c.isDigit = true ∧ c ≠ '.' ∧ c ≠ '/' ∧ c ≠ ':' := by
  rcases toDecCore_mem (n + 1) n [] c h with h | ⟨k, hk, rfl⟩
  · simp at h
  · have hall : ∀ k, k < 10 →
        (Nat.digitChar k).isDigit = true ∧ Nat.digitChar k ≠ '.' ∧
          Nat.digitChar k ≠ '/' ∧ Nat.digitChar k ≠ ':' := by decide
    exact hall k hk

/-! ## Lemmas about the dotted-decimal codec of the IPv4 family -/

/-- Splitting a dot-free list yields that single group. -/
theorem splitDots_no_dot : ∀ xs : List Char, (∀ c ∈ xs, c ≠ '.') → splitDots xs = [xs] := by
  intro xs
  induction xs with
  | nil => intro; simp [splitDots]
  | cons c rest ih =>
    intro h
    have hc : ¬ c = '.' := h c (by simp)
    simp only [splitDots, if_neg hc]
    rw [ih (fun d hd => h d (by simp [hd]))]

/-- Splitting peels off a dot-free group before a dot. -/
theorem splitDots_append (xs ys : List Char) (h : ∀ c ∈ xs, c ≠ '.') :
    splitDots (xs ++ '.' :: ys) = xs :: splitDots ys := by
  induction xs with
  | nil => simp [splitDots]
  | cons c rest ih =>
    have hc : ¬ c = '.' := h c (by simp)
    simp only [List.cons_append, splitDots, if_neg hc, List.append_eq]
    rw [ih (fun d hd => h d (by simp [hd]))]

/-- Parsing the printed octet recovers it. -/
theorem parseOctet_natToDec (b : Fin 256) : parseOctet (natToDec b.val) = some b := by
  unfold parseOctet
  rw [if_neg (natToDec_ne_nil b.val)]
  have hall : (natToDec b.val).all Char.isDigit = true :=
    List.all_eq_true.mpr (fun c hc => (natToDec_chars hc).1)
  rw [if_pos hall]
  have hrt : decToNat (natToDec b.val) = b.val := decToNat_natToDec b.val
  have hlt : decToNat (natToDec b.val) < 256 := by rw [hrt]; exact b.isLt
  rw [dif_pos hlt]
  congr 1
  exact Fin.ext hrt

/-- The IPv4 codec round trip: parsing the canonical dotted-decimal form of
any address yields that address. -/
theorem from_to_v4 (a : address_v4) : from_string_v4 (to_string_v4 a) = some a := by
  obtain ⟨b0, b1, b2, b3⟩ := a
  have hnd : ∀ (n : Nat), ∀ c ∈ natToDec n, c ≠ '.' := fun n c hc => (natToDec_chars hc).2.1
  unfold from_string_v4 to_string_v4
  rw [splitDots_append _ _ (hnd _), splitDots_append _ _ (hnd _), splitDots_append _ _ (hnd _),
    splitDots_no_dot _ (hnd _)]
  simp only [parseOctet_natToDec]

/-- Every character of the canonical IPv4 text is in the scanner's alphabet. -/
theorem to_string_v4_chars (a : address_v4) :
    ∀ c ∈ to_string_v4 a, addr_char_v4 c = true := by
  intro c hc
  unfold to_string_v4 at hc
  simp only [List.mem_append, List.mem_cons] at hc
  unfold addr_char_v4
  rcases hc with h | rfl | h | rfl | h | rfl | h <;>
    first
      | decide
      | simp [(natToDec_chars h).1]

/-- The slash separator is outside the IPv4 scanner's alphabet. -/
theorem addr_char_v4_slash : addr_char_v4 '/' = false := by decide

/-! ## Lemmas about the hexadecimal printer -/

/-- The accumulator splits off the printed hex digits. -/
theorem toHexCore_append (fuel : Nat) :
    ∀ n acc, toHexCore fuel n acc = toHexCore fuel n [] ++ acc := by
  induction fuel with
  | zero => intro n acc; simp [toHexCore]
  | succ fuel ih =>
    intro n acc
    simp only [toHexCore]
    by_cases h : n / 16 = 0
    · simp [h]
    · simp only [if_neg h]
      rw [ih (n / 16) (Nat.digitChar (n % 16) :: acc),
        ih (n / 16) [Nat.digitChar (n % 16)], List.append_assoc]
      rfl

/-- Reading the printed hex digits back gives the number, provided the fuel
covers all digits. -/
theorem hexToNat_toHexCore (fuel : Nat) :
    ∀ n, n < 16 ^ fuel → hexToNat (toHexCore fuel n []) = n := by
  induction fuel with
  | zero => intro n h; interval_cases n; simp [toHexCore, hexToNat]
  | succ fuel ih =>
    intro n h
    simp only [toHexCore]
    by_cases h0 : n / 16 = 0
    · have hn : n < 16 := by omega
      simp only [if_pos h0, hexToNat, List.foldl]
      have : hexVal (Nat.digitChar (n % 16)) = n % 16 := by
        have hk : ∀ k, k < 16 → hexVal (Nat.digitChar k) = k := by decide
        exact hk (n % 16) (Nat.mod_lt _ (by omega))
      omega
    · simp only [if_neg h0]
      rw [toHexCore_append]
      have hdiv : n / 16 < 16 ^ fuel := by
        rw [Nat.div_lt_iff_lt_mul (by omega)]
        calc n < 16 ^ (fuel + 1) := h
          _ = 16 ^ fuel * 16 := by ring
      have hrec := ih (n / 16) hdiv
      have hval : hexVal (Nat.digitChar (n % 16)) = n % 16 := by
        have hk : ∀ k, k < 16 → hexVal (Nat.digitChar k) = k := by decide
        exact hk (n % 16) (Nat.mod_lt _ (by omega))
      simp only [hexToNat] at hrec ⊢
      rw [List.foldl_append]
      simp only [List.foldl, hrec, hval]
      omega

/-- Small fuel bound for base 16. -/
theorem lt_sixteen_pow_succ (n : Nat) : n < 16 ^ (n + 1) := by
  calc n < n + 1 := Nat.lt_succ_self n
    _ ≤ 16 ^ (n + 1) := Nat.le_of_lt (Nat.lt_pow_self (by omega) _)

/-- Hexadecimal round trip. -/
theorem hexToNat_natToHex (n : Nat) : hexToNat (natToHex n) = n :=
  hexToNat_toHexCore (n + 1) n (lt_sixteen_pow_succ n)

/-- A nonempty accumulator keeps the printed hex list nonempty. -/
theorem toHexCore_ne_nil (fuel : Nat) :
    ∀ n acc, acc ≠ [] → toHexCore fuel n acc ≠ [] := by
  induction fuel with
  | zero => intro n acc h; simpa [toHexCore] using h
  | succ fuel ih =>
    intro n acc h
    simp only [toHexCore]
    by_cases h0 : n / 16 = 0
    · simp [h0]
    · simp only [if_neg h0]
      exact ih (n / 16) _ (by simp)

/-- The hex form of a number is never empty. -/
theorem natToHex_ne_nil (n : Nat) : natToHex n ≠ [] := by
  unfold natToHex toHexCore
  by_cases h0 : n / 16 = 0
  · simp [h0]
  · simp only [if_neg h0]
    exact toHexCore_ne_nil n (n / 16) _ (by simp)

/-- Every character the hex printer emits is the digit character of a value
below sixteen. -/
theorem toHexCore_mem (fuel : Nat) :
    ∀ n acc c, c ∈ toHexCore fuel n acc →
      c ∈ acc ∨ ∃ k, k < 16 ∧ c = Nat.digitChar k := by
  induction fuel with
  | zero => intro n acc c h; exact Or.inl (by simpa [toHexCore] using h)
  | succ fuel ih =>
    intro n acc c h
    simp only [toHexCore] at h
    by_cases h0 : n / 16 = 0
    · rw [if_pos h0] at h
      rcases List.mem_cons.mp h with h | h
      · exact Or.inr ⟨n % 16, Nat.mod_lt _ (by omega), h⟩
      · exact Or.inl h
    · rw [if_neg h0] at h
      rcases ih (n / 16) _ c h with h | h
      · rcases List.mem_cons.mp h with h | h
        · exact Or.inr ⟨n % 16, Nat.mod_lt _ (by omega), h⟩
        · exact Or.inl h
      · exact Or.inr h

/-- Characters of a printed hex number are hex digits, and in particular
none of the grammar's separator characters. -/
theorem natToHex_chars {n : Nat} {c : Char} (h : c ∈ natToHex n) :
    isHexChar c = true ∧ c ≠ ':' ∧ c ≠ '.' ∧ c ≠ '/' := by
  rcases toHexCore_mem (n + 1) n [] c h with h | ⟨k, hk, rfl⟩
  · simp at h
  · have hall : ∀ k, k < 16 →
        isHexChar (Nat.digitChar k) = true ∧ Nat.digitChar k ≠ ':' ∧
          Nat.digitChar k ≠ '.' ∧ Nat.digitChar k ≠ '/' := by decide
    exact hall k hk

/-- Parsing the printed hex group recovers it. -/
theorem parseHexGroup_natToHex (g : Fin 65536) :
    parseHexGroup (natToHex g.val) = some g := by
  unfold parseHexGroup
  rw [if_neg (natToHex_ne_nil g.val)]
  have hall : (natToHex g.val).all isHexChar = true :=
    List.all_eq_true.mpr (fun c hc => (natToHex_chars hc).1)
  rw [if_pos hall]
  have hrt : hexToNat (natToHex g.val) = g.val := hexToNat_natToHex g.val
  have hlt : hexToNat (natToHex g.val) < 65536 := by rw [hrt]; exact g.isLt
  rw [dif_pos hlt]
  congr 1
  exact Fin.ext hrt

/-! ## Lemmas about the colon-separated group syntax of the IPv6 codec -/

/-- Splitting a colon-free list yields that single group. -/
theorem splitColons_no_colon :
    ∀ xs : List Char, (∀ c ∈ xs, c ≠ ':') → splitColons xs = [xs] := by
  intro xs
  induction xs with
  | nil => intro; simp [splitColons]
  | cons c rest ih =>
    intro h
    have hc : ¬ c = ':' := h c (by simp)
    simp only [splitColons, if_neg hc]
    rw [ih (fun d hd => h d (by simp [hd]))]

/-- Splitting peels off a colon-free group before a colon. -/
theorem splitColons_append (xs ys : List Char) (h : ∀ c ∈ xs, c ≠ ':') :
    splitColons (xs ++ ':' :: ys) = xs :: splitColons ys := by
  induction xs with
  | nil => simp [splitColons]
  | cons c rest ih =>
    have hc : ¬ c = ':' := h c (by simp)
    simp only [List.cons_append, splitColons, if_neg hc, List.append_eq]
    rw [ih (fun d hd => h d (by simp [hd]))]

/-- Splitting the colon-joined form of nonempty colon-free groups recovers
the groups. -/
theorem splitColons_join :
    ∀ gs : List (List Char), gs ≠ [] → (∀ g ∈ gs, ∀ c ∈ g, c ≠ ':') →
      splitColons (joinColon gs) = gs := by
  intro gs
  induction gs with
  | nil => intro h; exact absurd rfl h
  | cons x rest ih =>
    intro _ h
    cases rest with
    | nil =>
      simp only [joinColon]
      exact splitColons_no_colon x (h x (by simp))
    | cons y rest' =>
      simp only [joinColon]
      rw [splitColons_append x _ (h x (by simp))]
      rw [ih (by simp) (fun g hg c hc => h g (by simp [hg]) c hc)]

/-- Appending a colon-free block does not create adjacent colons. -/
theorem hasAdj_append (xs ys : List Char) (h : ∀ c ∈ xs, c ≠ ':') :
    hasAdjacentColons (xs ++ ys) = hasAdjacentColons ys := by
  induction xs with
  | nil => rfl
  | cons c xs' ih =>
    have hc : ¬ c = ':' := h c (by simp)
    cases xs' with
    | nil =>
      cases ys with
      | nil => rfl
      | cons d ys' => simp [hasAdjacentColons, hc]
    | cons d xs'' =>
      simp only [List.cons_append, hasAdjacentColons,
        decide_eq_false (show ¬ c = ':' from hc), Bool.false_and, Bool.false_or]
      exact ih (fun e he => h e (by simp [he]))

/-- A prefix of a list without adjacent colons has none either. -/
theorem hasAdj_left (xs ys : List Char)
    (h : hasAdjacentColons (xs ++ ys) = false) : hasAdjacentColons xs = false := by
  induction xs with
  | nil => rfl
  | cons c xs' ih =>
    cases xs' with
    | nil => rfl
    | cons d xs'' =>
      simp only [List.cons_append, hasAdjacentColons, Bool.or_eq_false_iff] at h ⊢
      exact ⟨h.1, ih h.2⟩

/-- Without adjacent colons there is no double colon to find. -/
theorem findDC_none (xs : List Char) (h : hasAdjacentColons xs = false) :
    findDoubleColon xs = none := by
  induction xs with
  | nil => rfl
  | cons c xs' ih =>
    cases xs' with
    | nil => rfl
    | cons d xs'' =>
      simp only [hasAdjacentColons, Bool.or_eq_false_iff, Bool.and_eq_false_iff,
        decide_eq_false_iff_not] at h
      have hcd : ¬ (c = ':' ∧ d = ':') := by
        rcases h.1 with h1 | h1
        · exact fun hp => h1 hp.1
        · exact fun hp => h1 hp.2
      simp only [findDoubleColon, if_neg hcd]
      rw [ih h.2]
      rfl

/-- The first double colon after a block that neither contains adjacent
colons nor ends in a colon is the one explicitly appended. -/
theorem findDC_mid (xs ys : List Char)
    (h : hasAdjacentColons (xs ++ [':']) = false) :
    findDoubleColon (xs ++ ':' :: ':' :: ys) = some (xs, ys) := by
  induction xs with
  | nil => simp [findDoubleColon]
  | cons c xs' ih =>
    cases xs' with
    | nil =>
      have hc : ¬ c = ':' := by
        intro hceq
        subst hceq
        simp [hasAdjacentColons] at h
      have hcd : ¬ (c = ':' ∧ ':' = ':') := fun hp => hc hp.1
      simp [findDoubleColon, hcd, hc]
    | cons d xs'' =>
      simp only [List.cons_append, hasAdjacentColons, Bool.or_eq_false_iff,
        Bool.and_eq_false_iff, decide_eq_false_iff_not] at h
      have hcd : ¬ (c = ':' ∧ d = ':') := by
        rcases h.1 with h1 | h1
        · exact fun hp => h1 hp.1
        · exact fun hp => h1 hp.2
      have h' : hasAdjacentColons ((d :: xs'') ++ [':']) = false := by
        simpa using h.2
      simp only [findDoubleColon, if_neg hcd, List.append_eq]
      rw [show d :: (xs'' ++ ':' :: ':' :: ys) = (d :: xs'') ++ ':' :: ':' :: ys from rfl,
        ih h']
      rfl

/-- The colon-join of nonempty colon-free groups is nonempty when the group
list is. -/
theorem joinColon_ne_nil :
    ∀ gs : List (List Char), gs ≠ [] → (∀ g ∈ gs, g ≠ []) → joinColon gs ≠ [] := by
  intro gs hne h
  cases gs with
  | nil => exact absurd rfl hne
  | cons x rest =>
    cases rest with
    | nil => simpa [joinColon] using h x (by simp)
    | cons y rest' => simp [joinColon]

/-- Every character of a colon-join is a group character or a colon. -/
theorem mem_joinColon {c : Char} :
    ∀ gs : List (List Char), c ∈ joinColon gs → (∃ g ∈ gs, c ∈ g) ∨ c = ':' := by
  intro gs
  induction gs with
  | nil => intro h; simp [joinColon] at h
  | cons x rest ih =>
    cases rest with
    | nil =>
      intro h
      exact Or.inl ⟨x, by simp, by simpa [joinColon] using h⟩
    | cons y rest' =>
      intro h
      simp only [joinColon, List.mem_append, List.mem_cons] at h
      rcases h with h | h | h
      · exact Or.inl ⟨x, by simp, h⟩
      · exact Or.inr h
      · rcases ih h with ⟨g, hg, hc⟩ | h
        · exact Or.inl ⟨g, by simp [hg], hc⟩
        · exact Or.inr h

/-- Auxiliary step: a colon followed by a join of nonempty colon-free groups
and a final colon has no adjacent colons. -/
theorem join_colon_aux :
    ∀ gs : List (List Char), gs ≠ [] → (∀ g ∈ gs, g ≠ [] ∧ ∀ c ∈ g, c ≠ ':') →
      hasAdjacentColons (':' :: (joinColon gs ++ [':'])) = false := by
  intro gs
  induction gs with
  | nil => intro h; exact absurd rfl h
  | cons x rest ih =>
    intro _ h
    obtain ⟨hxne, hxcf⟩ := h x (by simp)
    obtain ⟨d, x', rfl⟩ : ∃ d x', x = d :: x' := by
      cases x with
      | nil => exact absurd rfl hxne
      | cons d x' => exact ⟨d, x', rfl⟩
    have hd : ¬ d = ':' := hxcf d (by simp)
    cases rest with
    | nil =>
      simp only [joinColon, List.cons_append, hasAdjacentColons,
        decide_eq_false hd, Bool.and_false, Bool.false_or, List.append_eq]
      rw [show d :: (x' ++ [':']) = (d :: x') ++ [':'] from rfl, hasAdj_append _ _ hxcf]
      rfl
    | cons y rest' =>
      simp only [joinColon, List.cons_append, List.append_assoc, hasAdjacentColons,
        decide_eq_false hd, Bool.and_false, Bool.false_or, List.append_eq]
      rw [show d :: (x' ++ ':' :: (joinColon (y :: rest') ++ [':'])) =
        (d :: x') ++ ':' :: (joinColon (y :: rest') ++ [':']) from rfl,
        hasAdj_append _ _ hxcf]
      exact ih (by simp) (fun g hg => h g (by simp [hg]))

/-- The join of nonempty colon-free groups, even with a colon appended, has
no adjacent colons. -/
theorem join_no_adj_colon (gs : List (List Char))
    (h : ∀ g ∈ gs, g ≠ [] ∧ ∀ c ∈ g, c ≠ ':') :
    hasAdjacentColons (joinColon gs ++ [':']) = false := by
  cases gs with
  | nil => rfl
  | cons x rest =>
    obtain ⟨hxne, hxcf⟩ := h x (by simp)
    cases rest with
    | nil =>
      simp only [joinColon]
      rw [hasAdj_append _ _ hxcf]
      rfl
    | cons y rest' =>
      simp only [joinColon, List.cons_append, List.append_assoc]
      rw [hasAdj_append _ _ hxcf]
      exact join_colon_aux (y :: rest') (by simp) (fun g hg => h g (by simp [hg]))

/-! ## Lemmas about the zero-run compression -/

/-- A scan's length never exceeds the list's. -/
theorem length_takeWhile_le_self (p : α → Bool) :
    ∀ xs : List α, (xs.takeWhile p).length ≤ xs.length := by
  intro xs
  induction xs with
  | nil => simp
  | cons x rest ih =>
    by_cases hx : p x
    · simp only [List.takeWhile_cons, if_pos hx, List.length_cons]
      omega
    · simp [List.takeWhile_cons, hx]

/-- Taking a scan's length takes exactly the scanned block. -/
theorem take_len_takeWhile (p : α → Bool) :
    ∀ xs : List α, xs.take (xs.takeWhile p).length = xs.takeWhile p := by
  intro xs
  induction xs with
  | nil => rfl
  | cons x rest ih =>
    by_cases hx : p x
    · simp [List.takeWhile_cons, hx, ih]
    · simp [List.takeWhile_cons, hx]

/-- A zero run starting inside the list ends inside the list. -/
theorem zeroRunAt_add_le (gs : List Nat) (i : Nat) (hi : i ≤ gs.length) :
    i + zeroRunAt gs i ≤ gs.length := by
  have h1 : zeroRunAt gs i ≤ (gs.drop i).length := length_takeWhile_le_self _ _
  have h2 : (gs.drop i).length = gs.length - i := List.length_drop i gs
  omega

/-- The groups inside the reported zero run are all zero. -/
theorem zeroRunAt_segment (gs : List Nat) (i : Nat) :
    ∀ x ∈ (gs.drop i).take (zeroRunAt gs i), x = 0 := by
  intro x hx
  unfold zeroRunAt at hx
  rw [take_len_takeWhile] at hx
  have := List.mem_takeWhile_imp hx
  simpa using this

/-- Invariant of the best-run fold: the accumulator is the initial sentinel
or a genuine run inside the list. -/
theorem bestRun_foldl_inv (gs : List Nat) :
    ∀ (js : List Nat) (acc : Nat × Nat),
      (acc = (0, 0) ∨ (acc.2 = zeroRunAt gs acc.1 ∧ acc.1 < gs.length)) →
      (∀ j ∈ js, j < gs.length) →
      (js.foldl (fun acc i => if acc.2 < zeroRunAt gs i then (i, zeroRunAt gs i) else acc) acc
          = (0, 0) ∨
        ((js.foldl (fun acc i => if acc.2 < zeroRunAt gs i then (i, zeroRunAt gs i) else acc)
              acc).2 =
            zeroRunAt gs
              (js.foldl
                (fun acc i => if acc.2 < zeroRunAt gs i then (i, zeroRunAt gs i) else acc)
                acc).1 ∧
          (js.foldl (fun acc i => if acc.2 < zeroRunAt gs i then (i, zeroRunAt gs i) else acc)
              acc).1 < gs.length)) := by
  intro js
  induction js with
  | nil => intro acc hacc _; exact hacc
  | cons j js' ih =>
    intro acc hacc hmem
    simp only [List.foldl_cons]
    apply ih
    · by_cases hlt : acc.2 < zeroRunAt gs j
      · rw [if_pos hlt]
        exact Or.inr ⟨rfl, hmem j (by simp)⟩
      · rw [if_neg hlt]
        exact hacc
    · exact fun j' hj' => hmem j' (by simp [hj'])

/-- What a reported best zero run guarantees: it is a genuine zero run of
length at least two starting inside the list. -/
theorem bestZeroRun_spec (gs : List Nat) (i len : Nat)
    (h : bestZeroRun gs = some (i, len)) :
    len = zeroRunAt gs i ∧ 2 ≤ len ∧ i < gs.length := by
  simp only [bestZeroRun] at h
  split at h
  · rename_i h2
    injection h with h
    have hinv := bestRun_foldl_inv gs (List.range gs.length) (0, 0) (Or.inl rfl)
      (fun j hj => List.mem_range.mp hj)
    rw [h] at hinv h2
    rcases hinv with hz | ⟨hrun, hlt⟩
    · exfalso
      have : len = 0 := by
        have := congrArg Prod.snd hz
        simpa using this
      simp only [this] at h2
      omega
    · exact ⟨hrun, by simpa using h2, hlt⟩
  · exact absurd h (by simp)

/-- The printed hex groups are nonempty and colon-free. -/
theorem map_natToHex_groups_ok (xs : List (Fin 65536)) :
    ∀ t ∈ xs.map (fun g => natToHex g.val), t ≠ [] ∧ ∀ c ∈ t, c ≠ ':' := by
  intro t ht
  obtain ⟨x, hx, rfl⟩ := List.mem_map.mp ht
  exact ⟨natToHex_ne_nil _, fun c hc => (natToHex_chars hc).2.1⟩

/-- Parsing printed hex groups elementwise recovers the group values. -/
theorem parseGroups_map (xs : List (Fin 65536)) :
    parseGroups (xs.map (fun g => natToHex g.val)) = some xs := by
  induction xs with
  | nil => rfl
  | cons g xs' ih =>
    simp [parseGroups, parseHexGroup_natToHex, ih]

/-- One side of the double colon parses back to the groups it printed —
including the empty side, which parses to no groups. -/
theorem parse_group_side (xs : List (Fin 65536)) :
    (if joinColon (xs.map (fun g => natToHex g.val)) = [] then
        some ([] : List (Fin 65536))
      else parseGroups (splitColons (joinColon (xs.map (fun g => natToHex g.val)))))
      = some xs := by
  cases xs with
  | nil => simp [joinColon]
  | cons g xs' =>
    have hmapne : (g :: xs').map (fun g => natToHex g.val) ≠ [] := by simp
    have hok := map_natToHex_groups_ok (g :: xs')
    rw [if_neg (joinColon_ne_nil _ hmapne (fun t ht => (hok t ht).1)),
      splitColons_join _ hmapne (fun t ht => (hok t ht).2), parseGroups_map]

/-- The IPv6 codec round trip: parsing the canonical compressed
colon-hexadecimal form of any address yields that address. -/
theorem from_to_v6 (a : address_v6) : from_string_v6 (to_string_v6 a) = some a := by
  obtain ⟨g0, g1, g2, g3, g4, g5, g6, g7⟩ := a
  set G : List (Fin 65536) := [g0, g1, g2, g3, g4, g5, g6, g7] with hG
  have hval : groups_v6 ⟨g0, g1, g2, g3, g4, g5, g6, g7⟩ = G.map Fin.val := by
    rw [hG]; rfl
  have hglen : (groups_v6 ⟨g0, g1, g2, g3, g4, g5, g6, g7⟩).length = 8 := rfl
  rcases hbr : bestZeroRun (groups_v6 ⟨g0, g1, g2, g3, g4, g5, g6, g7⟩) with _ | ⟨i, len⟩
  · -- no compressible run: all eight groups are printed
    have hmap : (groups_v6 ⟨g0, g1, g2, g3, g4, g5, g6, g7⟩).map natToHex
        = G.map (fun g => natToHex g.val) := by
      rw [hval, List.map_map]; rfl
    simp only [to_string_v6, hbr, hmap]
    have hok := map_natToHex_groups_ok G
    have hnone := findDC_none _ (hasAdj_left _ _ (join_no_adj_colon _ hok))
    have hsplit : splitColons (joinColon (G.map fun g => natToHex g.val))
        = G.map (fun g => natToHex g.val) :=
      splitColons_join _ (by rw [hG]; simp) (fun g hg => (hok g hg).2)
    simp only [from_string_v6, hnone, hsplit, parseGroups_map]
    rw [hG]
    rfl
  · -- a zero run of length ≥ 2 was compressed into the double colon
    obtain ⟨hrun, h2, hilt⟩ := bestZeroRun_spec _ _ _ hbr
    rw [hglen] at hilt
    have hile : i + len ≤ 8 := by
      have hb := zeroRunAt_add_le (groups_v6 ⟨g0, g1, g2, g3, g4, g5, g6, g7⟩) i
        (by rw [hglen]; omega)
      rw [hglen, ← hrun] at hb
      exact hb
    have hpre : ((groups_v6 ⟨g0, g1, g2, g3, g4, g5, g6, g7⟩).take i).map natToHex
        = (G.take i).map (fun g => natToHex g.val) := by
      rw [hval, ← List.map_take, List.map_map]; rfl
    have hpost : ((groups_v6 ⟨g0, g1, g2, g3, g4, g5, g6, g7⟩).drop (i + len)).map natToHex
        = (G.drop (i + len)).map (fun g => natToHex g.val) := by
      rw [hval, ← List.map_drop, List.map_map]; rfl
    simp only [to_string_v6, hbr, hpre, hpost]
    have hAok := map_natToHex_groups_ok (G.take i)
    have hBok := map_natToHex_groups_ok (G.drop (i + len))
    have hfind := findDC_mid (joinColon ((G.take i).map (fun g => natToHex g.val)))
      (joinColon ((G.drop (i + len)).map (fun g => natToHex g.val)))
      (join_no_adj_colon _ hAok)
    have hBnone := findDC_none _ (hasAdj_left _ _ (join_no_adj_colon _ hBok))
    simp only [from_string_v6, hfind, hBnone, parse_group_side]
    have hlt' : (G.take i).length = i := by
      rw [hG]
      simp only [List.length_take, List.length_cons, List.length_nil]
      omega
    have hdl : (G.drop (i + len)).length = 8 - (i + len) := by
      rw [hG]
      simp
    rw [hlt', hdl, if_pos (by omega)]
    have hcnt : 8 - i - (8 - (i + len)) = len := by omega
    rw [hcnt]
    have hmid : (G.drop i).take len = List.replicate len (0 : Fin 65536) := by
      rw [List.eq_replicate_iff]
      refine ⟨?_, ?_⟩
      · rw [hG]
        simp only [List.length_take, List.length_drop, List.length_cons, List.length_nil]
        omega
      · intro b hb
        have hv : b.val ∈ ((groups_v6 ⟨g0, g1, g2, g3, g4, g5, g6, g7⟩).drop i).take len := by
          rw [hval, ← List.map_drop, ← List.map_take]
          exact List.mem_map_of_mem _ hb
        have h0 : b.val = 0 := by
          have hseg := zeroRunAt_segment (groups_v6 ⟨g0, g1, g2, g3, g4, g5, g6, g7⟩) i
          rw [← hrun] at hseg
          exact hseg _ hv
        exact Fin.ext (by simpa using h0)
    have hassm : G.take i ++ (List.replicate len (0 : Fin 65536) ++ G.drop (i + len)) = G := by
      rw [← hmid, show G.drop (i + len) = (G.drop i).drop len from (List.drop_drop len i G).symm,
        List.take_append_drop, List.take_append_drop]
    rw [List.append_assoc, hassm, hG]
    rfl

/-- Every character of the canonical IPv6 text is in the scanner's alphabet:
a hex digit from one of the groups or a separating colon. -/
theorem to_string_v6_chars (a : address_v6) :
    ∀ c ∈ to_string_v6 a, addr_char_v6 c = true := by
  intro c hc
  have hjoin : ∀ (L : List Nat), c ∈ joinColon (L.map natToHex) → addr_char_v6 c = true := by
    intro L hm
    rcases mem_joinColon _ hm with ⟨g, hg, hcg⟩ | rfl
    · obtain ⟨n, hn, rfl⟩ := List.mem_map.mp hg
      have := (natToHex_chars hcg).1
      simp [addr_char_v6, this]
    · decide
  rcases hbr : bestZeroRun (groups_v6 a) with _ | ⟨i, len⟩ <;>
    simp only [to_string_v6, hbr] at hc
  · exact hjoin _ hc
  · simp only [List.mem_append, List.mem_cons] at hc
    rcases hc with h | rfl | rfl | h
    · exact hjoin _ h
    · decide
    · decide
    · exact hjoin _ h

/-- The slash separator is outside the IPv6 scanner's alphabet. -/
theorem addr_char_v6_slash : addr_char_v6 '/' = false := by decide

/-! ## Small list helpers for the scanner -/

/-- A maximal-run scan over a satisfying block stops exactly at the first
non-satisfying character. -/
theorem takeWhile_append_stop (p : Char → Bool) (xs ys : List Char) (c : Char)
    (hxs : ∀ x ∈ xs, p x = true) (hc : p c = false) :
    (xs ++ c :: ys).takeWhile p = xs := by
  induction xs with
  | nil => simp [List.takeWhile, hc]
  | cons x rest ih =>
    have hx : p x = true := hxs x (by simp)
    simp only [List.cons_append, List.takeWhile, hx, List.append_eq]
    rw [ih (fun d hd => hxs d (by simp [hd]))]

/-- A scan over an entirely satisfying list consumes all of it. -/
theorem takeWhile_all (p : Char → Bool) (xs : List Char)
    (hxs : ∀ x ∈ xs, p x = true) : xs.takeWhile p = xs := by
  induction xs with
  | nil => simp
  | cons x rest ih =>
    simp only [List.takeWhile, hxs x (by simp)]
    rw [ih (fun d hd => hxs d (by simp [hd]))]

/-- The character right after a block is found at the block's length. -/
theorem get_append_mid (xs ys : List Char) (c : Char) :
    (xs ++ c :: ys)[xs.length]? = some c := by
  induction xs with
  | nil => simp
  | cons x rest ih => simpa using ih

/-- Dropping a block and one separator leaves the tail. -/
theorem drop_append_mid (xs ys : List Char) (c : Char) :
    (xs ++ c :: ys).drop (xs.length + 1) = ys := by
  induction xs with
  | nil => rfl
  | cons x rest ih => exact ih

/-! ## The containment algorithm -/

/-- The byte loop of `has_address` computes exactly the containment walk the
specification describes; in particular the code's mask
`(0xFF >> r) ^ 0xFF` coincides with the spec's `0xFF << (8 - r)` on the byte
domain, and a zero remaining count makes the masked comparison trivially
true. -/
theorem has_address_loop_eq_spec :
    ∀ (nb ab : List Nat) (p : Nat), has_address_loop nb ab p = spec_contains nb ab p := by
  intro nb
  induction nb with
  | nil => intro ab p; cases ab <;> rfl
  | cons b nbs ih =>
    intro ab p
    cases ab with
    | nil => rfl
    | cons a abs =>
      simp only [has_address_loop, spec_contains]
      by_cases h8 : 8 ≤ p
      · rw [if_pos h8, if_pos h8]
        by_cases hba : b = a
        · simp [hba, ih]
        · simp [hba]
      · rw [if_neg h8, if_neg h8]
        by_cases h0 : p = 0
        · subst h0
          simp [Nat.and_zero]
        · have hmask : (0xFF >>> p) ^^^ 0xFF = (0xFF <<< (8 - p)) &&& 0xFF := by
            have hbound : ∀ q, q < 8 → 0 < q →
                ((0xFF >>> q) ^^^ 0xFF) = ((0xFF <<< (8 - q)) &&& 0xFF) := by decide
            exact hbound p (by omega) (by omega)
          rw [if_neg h0]
          simp only [hmask, Nat.and_assoc]
          by_cases hcmp : b &&& ((0xFF <<< (8 - p)) &&& 0xFF) = a &&& ((0xFF <<< (8 - p)) &&& 0xFF)
          · simp [hcmp]
          · simp [hcmp]

/-- A zero remaining count at entry accepts every probe. -/
theorem has_address_loop_zero (nb ab : List Nat) : has_address_loop nb ab 0 = true := by
  cases nb with
  | nil => rfl
  | cons b nbs =>
    cases ab with
    | nil => rfl
    | cons a abs => simp [has_address_loop, Nat.and_zero]

/-- When the prefix covers every byte, the loop demands exact byte equality. -/
theorem has_address_loop_full :
    ∀ (nb ab : List Nat) (p : Nat), nb.length = ab.length → 8 * nb.length ≤ p →
      (has_address_loop nb ab p = true ↔ nb = ab) := by
  intro nb
  induction nb with
  | nil =>
    intro ab p hlen _
    have : ab = [] := List.eq_nil_of_length_eq_zero hlen.symm
    subst this
    simp [has_address_loop]
  | cons b nbs ih =>
    intro ab p hlen hp
    cases ab with
    | nil => simp at hlen
    | cons a abs =>
      have h8 : 8 ≤ p := by
        simp only [List.length_cons] at hp
        omega
      simp only [has_address_loop, if_pos h8]
      by_cases hba : b = a
      · subst hba
        have hlen' : nbs.length = abs.length := by simpa using hlen
        have hp' : 8 * nbs.length ≤ p - 8 := by
          simp only [List.length_cons] at hp
          omega
        simp [ih abs (p - 8) hlen' hp']
      · simp [hba]

/-! ## Behavioral lemmas about the stream primitives -/

/-- The token a maximal-run scan reads at the current position. -/
def scanTok (p : Char → Bool) (is : IStream) : List Char :=
  (is.data.drop is.pos).takeWhile p

/-- Unfolding of the scanner. -/
theorem scanRun_eq (p : Char → Bool) (is : IStream) :
    scanRun p is =
      ({ is with
          pos := is.pos + (scanTok p is).length,
          eof := is.eof || decide (is.pos + (scanTok p is).length = is.data.length) },
        scanTok p is) := rfl

/-- A good stream has no failbit. -/
theorem good_fail {is : IStream} (h : is.good = true) : is.fail = false := by
  simp only [IStream.good, Bool.and_eq_true, Bool.not_eq_true'] at h
  exact h.1

/-- A good stream has no eofbit. -/
theorem good_eof {is : IStream} (h : is.good = true) : is.eof = false := by
  simp only [IStream.good, Bool.and_eq_true, Bool.not_eq_true'] at h
  exact h.2

/-- `read_ip_address` on a stream that is not good. -/
theorem read_ip_address_eq_bad (fam : AddrFamily α) (is : IStream)
    (h : ¬ is.good = true) : read_ip_address fam is = (is.setfail, []) := by
  simp [read_ip_address, h]

/-- `read_ip_address` when the scanned token is a valid address: the token is
consumed and returned. -/
theorem read_ip_address_eq_some (fam : AddrFamily α) (is : IStream) (a : α)
    (hg : is.good = true)
    (hs : fam.from_string (scanTok fam.addr_char is) = some a) :
    read_ip_address fam is =
      (⟨is.data, is.pos + (scanTok fam.addr_char is).length, false,
          decide (is.pos + (scanTok fam.addr_char is).length = is.data.length)⟩,
        scanTok fam.addr_char is) := by
  simp only [read_ip_address, scanRun_eq, hg, if_pos, hs]
  rw [good_fail hg, good_eof hg]
  simp

/-- `read_ip_address` when the scanned token is not a valid address: the
token is put back, the position is unchanged, the failbit is set. -/
theorem read_ip_address_eq_none (fam : AddrFamily α) (is : IStream)
    (hg : is.good = true)
    (hs : fam.from_string (scanTok fam.addr_char is) = none) :
    read_ip_address fam is =
      (⟨is.data, is.pos, true,
          decide (is.pos + (scanTok fam.addr_char is).length = is.data.length)⟩, []) := by
  simp only [read_ip_address, scanRun_eq, hg, if_pos, hs]
  rw [good_eof hg]
  simp [putback, IStream.setfail]

/-- `read_prefix_length` on a stream that is not good. -/
theorem read_prefix_length_eq_bad (is : IStream)
    (h : ¬ is.good = true) : read_prefix_length is = (is.setfail, []) := by
  simp [read_prefix_length, h]

/-- `read_prefix_length` with no digit available: nothing consumed, failbit
set (eofbit when the scan probed past the end). -/
theorem read_prefix_length_eq_empty (is : IStream) (hg : is.good = true)
    (h : scanTok Char.isDigit is = []) :
    read_prefix_length is =
      (⟨is.data, is.pos, true, decide (is.pos = is.data.length)⟩, []) := by
  simp only [read_prefix_length, scanRun_eq, hg, if_pos, h]
  rw [good_eof hg]
  simp [IStream.setfail]

/-- `read_prefix_length` with at least one digit: the digit run is consumed
and returned. -/
theorem read_prefix_length_eq_ok (is : IStream) (hg : is.good = true)
    (h : ¬ scanTok Char.isDigit is = []) :
    read_prefix_length is =
      (⟨is.data, is.pos + (scanTok Char.isDigit is).length, false,
          decide (is.pos + (scanTok Char.isDigit is).length = is.data.length)⟩,
        scanTok Char.isDigit is) := by
  simp only [read_prefix_length, scanRun_eq, hg, if_pos, h]
  rw [good_fail hg, good_eof hg]
  simp [h]

/-- `IStream.peek` at an available character. -/
theorem peek_eq_some (is : IStream) (c : Char) (h : is.data[is.pos]? = some c) :
    is.peek = (some c, is) := by
  simp [IStream.peek, h]

/-- `IStream.peek` past the end of data. -/
theorem peek_eq_none (is : IStream) (h : is.data[is.pos]? = none) :
    is.peek = (none, { is with eof := true }) := by
  simp [IStream.peek, h]

/-- `IStream.ignore` with a character available. -/
theorem ignore_eq (is : IStream) (h : is.pos < is.data.length) :
    is.ignore = { is with pos := is.pos + 1 } := by
  simp [IStream.ignore, h]

/-- Combined frame/restoration contract of `read_ip_address_prefix_length`:
the character data is never modified, and whenever the combined read fails
the position is back to exactly where the attempt began. -/
theorem rippl_restore (fam : AddrFamily α) (is : IStream) :
    (read_ip_address_prefix_length fam is).1.data = is.data ∧
      ((read_ip_address_prefix_length fam is).1.fail = true →
        (read_ip_address_prefix_length fam is).1.pos = is.pos) := by
  by_cases hg : is.good = true
  · rcases hfs : fam.from_string (scanTok fam.addr_char is) with _ | a
    · -- the address token is malformed: read_ip_address already restored
      rw [show (read_ip_address_prefix_length fam is) =
          ((read_ip_address fam is).1, (read_ip_address fam is).2, []) by
        simp only [read_ip_address_prefix_length, hg, if_pos,
          read_ip_address_eq_none fam is hg hfs]]
      rw [read_ip_address_eq_none fam is hg hfs]
      exact ⟨rfl, fun _ => rfl⟩
    · -- the address token parsed; analyse the slash and prefix-length steps
      have hf := good_fail hg
      have he := good_eof hg
      by_cases hE : is.pos + (scanTok fam.addr_char is).length = is.data.length
      · -- the token ran to the end of data: eofbit set, the stream is not
        -- good, the token is put back and the failbit set
        simp [read_ip_address_prefix_length, hg, hf, he,
          read_ip_address_eq_some fam is a hg hfs, IStream.good, hE,
          putback, IStream.setfail]
        omega
      · rcases hget : is.data[is.pos + (scanTok fam.addr_char is).length]? with _ | c
        · -- no character after the token (cannot actually happen when the
          -- token stops before the end, but the putback restores anyway)
          simp [read_ip_address_prefix_length, hg, hf, he,
            read_ip_address_eq_some fam is a hg hfs, IStream.good, hE,
            IStream.peek, hget, putback, IStream.setfail]
        · by_cases hc : c = '/'
          · -- a slash follows; the prefix-length read decides the outcome
            subst hc
            have hlt : is.pos + (scanTok fam.addr_char is).length < is.data.length := by
              rcases List.getElem?_eq_some_iff.mp hget with ⟨hlt, -⟩
              exact hlt
            by_cases h2 :
                scanTok Char.isDigit
                  ⟨is.data, is.pos + (scanTok fam.addr_char is).length + 1, false, false⟩ = []
            · -- no digits after the slash: token and slash are put back
              simp [read_ip_address_prefix_length, hg, hf, he,
                read_ip_address_eq_some fam is a hg hfs, IStream.good, hE,
                IStream.peek, hget, IStream.ignore, hlt,
                read_prefix_length_eq_empty _ (by simp [IStream.good]) h2,
                putback, IStream.setfail]
            · -- digits follow: the read succeeds, nothing to restore
              simp [read_ip_address_prefix_length, hg, hf, he,
                read_ip_address_eq_some fam is a hg hfs, IStream.good, hE,
                IStream.peek, hget, IStream.ignore, hlt,
                read_prefix_length_eq_ok _ (by simp [IStream.good]) h2]
          · -- the next character is not a slash: the token is put back
            simp [read_ip_address_prefix_length, hg, hf, he,
              read_ip_address_eq_some fam is a hg hfs, IStream.good, hE,
              IStream.peek, hget, putback, IStream.setfail, hc]
  · simp only [read_ip_address_prefix_length, hg, if_neg]
    exact ⟨rfl, fun _ => rfl⟩

/-- The stream returned by the family-level extraction operator is the one
`read_ip_address_prefix_length` produced. -/
theorem read_base_stream (fam : AddrFamily α) (is : IStream)
    (v : base_ip_network_address α) :
    (read_base_ip_network_address fam is v).1 = (read_ip_address_prefix_length fam is).1 := by
  rcases hr : read_ip_address_prefix_length fam is with ⟨is1, ip, pl⟩
  simp only [read_base_ip_network_address, hr]
  split
  · split <;> rfl
  · rfl

/-- Frame/restoration contract of the family-level extraction operator. -/
theorem read_base_restore (fam : AddrFamily α) (is : IStream)
    (v : base_ip_network_address α) :
    (read_base_ip_network_address fam is v).1.data = is.data ∧
      ((read_base_ip_network_address fam is v).1.fail = true →
        (read_base_ip_network_address fam is v).1.pos = is.pos) := by
  rw [read_base_stream fam is v]
  exact rippl_restore fam is

/-- A failed family-level extraction leaves the output value untouched. -/
theorem read_base_fail_value (fam : AddrFamily α) (is : IStream)
    (v : base_ip_network_address α)
    (h : (read_base_ip_network_address fam is v).1.fail = true) :
    (read_base_ip_network_address fam is v).2 = v := by
  rcases hr : read_ip_address_prefix_length fam is with ⟨is1, ip, pl⟩
  by_cases ht : is1.toBool = true
  · exfalso
    have hfail : is1.fail = false := by
      simpa [IStream.toBool] using ht
    rcases hfs : fam.from_string ip with _ | a <;>
      simp [read_base_ip_network_address, hr, ht, hfs, hfail] at h
  · simp [read_base_ip_network_address, hr, ht]

/-! ## The parse/format round trip -/

/-- Parsing the canonical `address/prefix` text printed by the output
operator succeeds and reproduces the printed value, for every address family
whose textual codec is canonical (parsing inverts printing), whose printed
addresses stay inside the scanner's token alphabet, and whose alphabet
excludes the `'/'` separator — the properties spec §3/§4.1 attribute to the
family codecs, proved below for both concrete families. -/
theorem read_base_format_generic (fam : AddrFamily α)
    (h1 : ∀ a, fam.from_string (fam.to_string a) = some a)
    (h2 : ∀ a, ∀ c ∈ fam.to_string a, fam.addr_char c = true)
    (h3 : fam.addr_char '/' = false)
    (v init : base_ip_network_address α) :
    (read_base_ip_network_address fam (mkStream (format_net fam v)) init).1.fail = false ∧
      (read_base_ip_network_address fam (mkStream (format_net fam v)) init).2 = v := by
  have hts : scanTok fam.addr_char (mkStream (format_net fam v)) = fam.to_string v.m_address := by
    simp only [scanTok, mkStream, format_net, List.drop_zero]
    exact takeWhile_append_stop _ _ _ _ (h2 v.m_address) h3
  have hg : (mkStream (format_net fam v)).good = true := rfl
  have hsome : fam.from_string (scanTok fam.addr_char (mkStream (format_net fam v)))
      = some v.m_address := by
    rw [hts]; exact h1 v.m_address
  have heq1 := read_ip_address_eq_some fam (mkStream (format_net fam v)) v.m_address hg hsome
  rw [hts] at heq1
  have hlen : (format_net fam v).length =
      (fam.to_string v.m_address).length + 1 + (natToDec v.m_prefix_length).length := by
    simp [format_net]
    omega
  have hE : ¬ ((mkStream (format_net fam v)).pos + (fam.to_string v.m_address).length
      = (format_net fam v).length) := by
    simp only [mkStream]
    omega
  have hget : (format_net fam v)[(fam.to_string v.m_address).length]? = some '/' := by
    simp only [format_net]
    exact get_append_mid _ _ _
  have hlt : (fam.to_string v.m_address).length < (format_net fam v).length := by
    omega
  have hdrop : (format_net fam v).drop ((fam.to_string v.m_address).length + 1)
      = natToDec v.m_prefix_length := by
    simp only [format_net]
    exact drop_append_mid _ _ _
  have hscan2 : scanTok Char.isDigit
      ⟨format_net fam v, (fam.to_string v.m_address).length + 1, false, false⟩
      = natToDec v.m_prefix_length := by
    simp only [scanTok, hdrop]
    exact takeWhile_all _ _ (fun c hc => (natToDec_chars hc).1)
  have hrp := read_prefix_length_eq_ok
    ⟨format_net fam v, (fam.to_string v.m_address).length + 1, false, false⟩
    (by simp [IStream.good])
    (by rw [hscan2]; exact natToDec_ne_nil _)
  rw [hscan2] at hrp
  have hend : (fam.to_string v.m_address).length + 1 + (natToDec v.m_prefix_length).length
      = (format_net fam v).length := hlen.symm
  have hrippl : read_ip_address_prefix_length fam (mkStream (format_net fam v)) =
      (⟨format_net fam v,
          (fam.to_string v.m_address).length + 1 + (natToDec v.m_prefix_length).length,
          false, true⟩,
        fam.to_string v.m_address, natToDec v.m_prefix_length) := by
    simp only [mkStream, Nat.zero_add] at heq1 hE ⊢
    simp [read_ip_address_prefix_length, IStream.good, heq1, hE,
      IStream.peek, hget, IStream.ignore, hlt, hrp, hend]
  constructor
  · simp [read_base_stream fam (mkStream (format_net fam v)) init, hrippl]
  · simp [read_base_ip_network_address, hrippl, IStream.toBool, h1 v.m_address,
      decToNat_natToDec]

/-! ## Claim theorems -/

/-- C1: on an input rejected by both family grammars — `"10.0.0.1"`, which
both families reject for want of a `/prefix` part — both family-specific
extractions fail, yet the union extraction operator returns a stream whose
failbit has been cleared (by the `is.clear()` in its second failure branch,
ip_network_address.cpp line 171) and leaves the output value untouched: the
combined failure is NOT observable on the returned stream/result, so the
claimed surfacing of a typed parse error does not hold of the code. -/
theorem union_read_swallows_double_failure :
    (read_base_ip_network_address famV6 (mkStream ("10.0.0.1".toList)) null_v6).1.fail = true ∧
      (read_base_ip_network_address famV4 (mkStream ("10.0.0.1".toList)) null_v4).1.fail = true ∧
      (read_ip_network_address (mkStream ("10.0.0.1".toList))
          (.v4 ⟨⟨1, 2, 3, 4⟩, 5⟩)).1.fail = false ∧
      (read_ip_network_address (mkStream ("10.0.0.1".toList))
          (.v4 ⟨⟨1, 2, 3, 4⟩, 5⟩)).2 = .v4 ⟨⟨1, 2, 3, 4⟩, 5⟩ := by
  decide

/-- C2: for a family-specific network address and a probe over byte sequences
of equal width, `has_address` computes exactly the walk the claim describes:
full-byte equality while the remaining-bits counter is at least 8
(decrementing by 8), a single comparison under the byte mask
`0xFF << (8 - remaining)` when the counter is in [1,8) that decides the
result, and acceptance when the counter is 0 at byte entry. -/
theorem has_address_eq_spec_walk (fam : AddrFamily α)
    (self : base_ip_network_address α) (probe : α)
    (_hlen : (fam.to_bytes self.m_address).length = (fam.to_bytes probe).length) :
    self.has_address fam probe =
      spec_contains (fam.to_bytes self.m_address) (fam.to_bytes probe)
        self.m_prefix_length :=
  has_address_loop_eq_spec _ _ _

/-- Witness for C2 at a concrete IPv4 network and probe. -/
theorem has_address_eq_spec_walk_witness :
    (famV4.to_bytes (⟨⟨192, 168, 1, 0⟩, 26⟩ : ipv4_network_address).m_address).length =
        (famV4.to_bytes (⟨192, 168, 1, 63⟩ : address_v4)).length ∧
      (⟨⟨192, 168, 1, 0⟩, 26⟩ : ipv4_network_address).has_address famV4 ⟨192, 168, 1, 63⟩ =
        spec_contains (famV4.to_bytes (⟨⟨192, 168, 1, 0⟩, 26⟩ : ipv4_network_address).m_address)
          (famV4.to_bytes (⟨192, 168, 1, 63⟩ : address_v4)) 26 :=
  ⟨by decide, has_address_eq_spec_walk famV4 ⟨⟨192, 168, 1, 0⟩, 26⟩ ⟨192, 168, 1, 63⟩ (by decide)⟩

/-- C3: when the address token of a family-specific parse is read
successfully but the whole parse fails — no `'/'` follows, or the prefix
length after `'/'` fails to parse — the stream position is restored to
exactly where the attempt began and the data is untouched, so re-reading
from that point yields the same characters as before the attempt. -/
theorem family_parse_failure_restores_position (fam : AddrFamily α) (is : IStream)
    (_haddr : (read_ip_address fam is).1.fail = false)
    (hfail : (read_ip_address_prefix_length fam is).1.fail = true) :
    (read_ip_address_prefix_length fam is).1.pos = is.pos ∧
      (read_ip_address_prefix_length fam is).1.data = is.data ∧
      (read_ip_address_prefix_length fam is).1.data.drop
          (read_ip_address_prefix_length fam is).1.pos = is.data.drop is.pos := by
  obtain ⟨hd, hp⟩ := rippl_restore fam is
  exact ⟨hp hfail, hd, by rw [hp hfail, hd]⟩

/-- Witness for C3: parsing `"10.0.0.1"` (address ok, no prefix) with the
IPv4 grammar fails and restores position 0 over unchanged data. -/
theorem family_parse_failure_restores_position_witness :
    (read_ip_address_prefix_length famV4 (mkStream ("10.0.0.1".toList))).1.pos = 0 ∧
      (read_ip_address_prefix_length famV4 (mkStream ("10.0.0.1".toList))).1.data
        = ("10.0.0.1".toList) ∧
      (read_ip_address_prefix_length famV4 (mkStream ("10.0.0.1".toList))).1.data.drop
          (read_ip_address_prefix_length famV4 (mkStream ("10.0.0.1".toList))).1.pos
        = ("10.0.0.1".toList).drop 0 :=
  family_parse_failure_restores_position famV4 (mkStream ("10.0.0.1".toList))
    (by decide) (by decide)

/-- C4: for every network address value of either family — any address, any
prefix length — parsing the text printed by the output operator (canonical
textual address, literal `'/'`, decimal prefix length) succeeds and yields a
value equal to the printed one. -/
theorem parse_format_round_trip :
    (∀ (v init : ipv4_network_address),
        (read_base_ip_network_address famV4 (mkStream (format_net famV4 v)) init).1.fail
            = false ∧
          (read_base_ip_network_address famV4 (mkStream (format_net famV4 v)) init).2 = v) ∧
      (∀ (v init : ipv6_network_address),
        (read_base_ip_network_address famV6 (mkStream (format_net famV6 v)) init).1.fail
            = false ∧
          (read_base_ip_network_address famV6 (mkStream (format_net famV6 v)) init).2 = v) :=
  ⟨fun v init =>
      read_base_format_generic famV4 from_to_v4 to_string_v4_chars addr_char_v4_slash v init,
    fun v init =>
      read_base_format_generic famV6 from_to_v6 to_string_v6_chars addr_char_v6_slash v init⟩

/-- Witness for C4 at `192.168.1.0/24` and `::1/128`. -/
theorem parse_format_round_trip_witness :
    ((read_base_ip_network_address famV4
          (mkStream (format_net famV4 ⟨⟨192, 168, 1, 0⟩, 24⟩)) null_v4).2
        = ⟨⟨192, 168, 1, 0⟩, 24⟩) ∧
      ((read_base_ip_network_address famV6
          (mkStream (format_net famV6 ⟨⟨0, 0, 0, 0, 0, 0, 0, 1⟩, 128⟩)) null_v6).2
        = ⟨⟨0, 0, 0, 0, 0, 0, 0, 1⟩, 128⟩) :=
  ⟨(parse_format_round_trip.1 ⟨⟨192, 168, 1, 0⟩, 24⟩ null_v4).2,
    (parse_format_round_trip.2 ⟨⟨0, 0, 0, 0, 0, 0, 0, 1⟩, 128⟩ null_v6).2⟩

/-- C5: the union extraction attempts the IPv6 grammar first; when it fails,
the stream is restored (same position and data) and the IPv4 grammar is
attempted; when that one succeeds, the union parse succeeds and the
resulting value's active family is IPv4. -/
theorem union_parse_fallback_to_ipv4 (is : IStream) (value : ip_network_address)
    (hgood : is.good = true)
    (h6 : (read_base_ip_network_address famV6 is null_v6).1.fail = true)
    (h4 : (read_base_ip_network_address famV4
        ((read_base_ip_network_address famV6 is null_v6).1.clear) null_v4).1.fail = false) :
    (read_ip_network_address is value).1.fail = false ∧
      (read_ip_network_address is value).2 =
        .v4 (read_base_ip_network_address famV4
          ((read_base_ip_network_address famV6 is null_v6).1.clear) null_v4).2 ∧
      (read_base_ip_network_address famV6 is null_v6).1.clear.pos = is.pos ∧
      (read_base_ip_network_address famV6 is null_v6).1.clear.data = is.data := by
  obtain ⟨hd6, hp6⟩ := read_base_restore famV6 is null_v6
  rcases hr6 : read_base_ip_network_address famV6 is null_v6 with ⟨is1, ina6⟩
  simp only [hr6] at h6 h4 hd6 hp6 ⊢
  rcases hr4 : read_base_ip_network_address famV4 is1.clear null_v4 with ⟨is3, ina4⟩
  simp only [hr4] at h4 ⊢
  have hbool : is.toBool = true := by simp [IStream.toBool, good_fail hgood]
  have ht6 : is1.toBool = false := by simp [IStream.toBool, h6]
  have hc2 : is1.clear.toBool = true := by simp [IStream.clear, IStream.toBool]
  have ht4 : is3.toBool = true := by simp [IStream.toBool, h4]
  refine ⟨?_, ?_, ?_, ?_⟩
  · simp [read_ip_network_address, hbool, hr6, ht6, hc2, hr4, ht4, h4]
  · simp [read_ip_network_address, hbool, hr6, ht6, hc2, hr4, ht4]
  · simp [IStream.clear, hp6 h6]
  · simp [IStream.clear, hd6]

/-- Witness for C5: `"10.0.0.1/24"` matches only the IPv4 grammar and the
union parse yields an IPv4-active value after restoring the position. -/
theorem union_parse_fallback_to_ipv4_witness :
    (read_ip_network_address (mkStream ("10.0.0.1/24".toList)) (.v6 null_v6)).1.fail = false ∧
      (read_ip_network_address (mkStream ("10.0.0.1/24".toList)) (.v6 null_v6)).2 =
        .v4 (read_base_ip_network_address famV4
          ((read_base_ip_network_address famV6 (mkStream ("10.0.0.1/24".toList))
            null_v6).1.clear) null_v4).2 ∧
      (read_base_ip_network_address famV6 (mkStream ("10.0.0.1/24".toList))
          null_v6).1.clear.pos = 0 ∧
      (read_base_ip_network_address famV6 (mkStream ("10.0.0.1/24".toList))
          null_v6).1.clear.data = ("10.0.0.1/24".toList) :=
  union_parse_fallback_to_ipv4 (mkStream ("10.0.0.1/24".toList)) (.v6 null_v6)
    (by decide) (by decide) (by decide)

/-- C6: containment through the union's visitor is `false` whenever the
probe's family differs from the active family, whatever the bit patterns:
an IPv4-active union never contains an IPv6 probe and an IPv6-active union
never contains an IPv4 probe. -/
theorem cross_family_containment_false :
    (∀ (n : ipv4_network_address) (a : address_v6),
        has_address_ip (.v4 n) (.v6 a) = false) ∧
      (∀ (n : ipv6_network_address) (a : address_v4),
        has_address_ip (.v6 n) (.v4 a) = false) :=
  ⟨fun _ _ => rfl, fun _ _ => rfl⟩

/-- C7: with a prefix length at or above the family's full bit width (32 for
IPv4, 128 for IPv6) — including out-of-range values, which construction does
not reject — `has_address` holds exactly when the probe's bytes equal the
network address's bytes. -/
theorem full_prefix_contains_exactly_self :
    (∀ (self : ipv4_network_address) (probe : address_v4), 32 ≤ self.m_prefix_length →
        (self.has_address famV4 probe = true ↔
          famV4.to_bytes self.m_address = famV4.to_bytes probe)) ∧
      (∀ (self : ipv6_network_address) (probe : address_v6), 128 ≤ self.m_prefix_length →
        (self.has_address famV6 probe = true ↔
          famV6.to_bytes self.m_address = famV6.to_bytes probe)) := by
  constructor
  · intro self probe h
    exact has_address_loop_full _ _ _ rfl h
  · intro self probe h
    exact has_address_loop_full _ _ _ rfl h

/-- Witness for C7: a /32 network contains exactly its own address. -/
theorem full_prefix_contains_exactly_self_witness :
    (⟨⟨192, 168, 1, 0⟩, 32⟩ : ipv4_network_address).has_address famV4 ⟨192, 168, 1, 0⟩ = true ↔
      famV4.to_bytes (⟨⟨192, 168, 1, 0⟩, 32⟩ : ipv4_network_address).m_address =
        famV4.to_bytes (⟨192, 168, 1, 0⟩ : address_v4) :=
  full_prefix_contains_exactly_self.1 ⟨⟨192, 168, 1, 0⟩, 32⟩ ⟨192, 168, 1, 0⟩ (by decide)

/-- C8: a network address with prefix length 0 contains every probe of its
family, whatever its own address bytes. -/
theorem zero_prefix_contains_all (fam : AddrFamily α)
    (self : base_ip_network_address α) (probe : α)
    (h : self.m_prefix_length = 0) : self.has_address fam probe = true := by
  unfold base_ip_network_address.has_address
  rw [h]
  exact has_address_loop_zero _ _

/-- Witness for C8. -/
theorem zero_prefix_contains_all_witness :
    (⟨⟨192, 168, 1, 0⟩, 0⟩ : ipv4_network_address).has_address famV4 ⟨7, 7, 7, 7⟩ = true :=
  zero_prefix_contains_all famV4 ⟨⟨192, 168, 1, 0⟩, 0⟩ ⟨7, 7, 7, 7⟩ rfl

/-- C9: the membership helper returns `false` on the empty sequence, returns
`true` at the first element containing the probe, the elements after that
first hit never influence the result (short-circuit), and it returns `false`
when no element contains the probe. -/
theorem membership_helper_short_circuit :
    (∀ probe, has_address_list [] probe = false) ∧
      (∀ (l1 : List ip_network_address) (x : ip_network_address)
          (l2 : List ip_network_address) (probe : ip_address),
        (∀ y ∈ l1, has_address_ip y probe = false) → has_address_ip x probe = true →
          has_address_list (l1 ++ x :: l2) probe = true) ∧
      (∀ (l1 : List ip_network_address) (x : ip_network_address)
          (l2 l2' : List ip_network_address) (probe : ip_address),
        has_address_ip x probe = true →
          has_address_list (l1 ++ x :: l2) probe = has_address_list (l1 ++ x :: l2') probe) ∧
      (∀ (l : List ip_network_address) (probe : ip_address),
        (∀ y ∈ l, has_address_ip y probe = false) → has_address_list l probe = false) := by
  refine ⟨fun _ => rfl, ?_, ?_, ?_⟩
  · intro l1 x l2 probe hl1 hx
    induction l1 with
    | nil => simp [has_address_list, hx]
    | cons y rest ih =>
      have hy := hl1 y (by simp)
      simp only [List.cons_append, has_address_list, hy, if_false]
      exact ih (fun z hz => hl1 z (by simp [hz]))
  · intro l1 x l2 l2' probe hx
    induction l1 with
    | nil => simp [has_address_list, hx]
    | cons y rest ih =>
      by_cases hy : has_address_ip y probe = true
      · simp [has_address_list, hy]
      · simp only [List.cons_append, has_address_list, hy, if_false]
        exact ih
  · intro l probe hl
    induction l with
    | nil => rfl
    | cons y rest ih =>
      have hy := hl y (by simp)
      simp only [has_address_list, hy, if_false]
      exact ih (fun z hz => hl z (by simp [hz]))

/-- Witness for C9: only the middle element contains the probe; the answer is
`true`, and the empty list answers `false`. -/
theorem membership_helper_short_circuit_witness :
    has_address_list
        [.v4 ⟨⟨10, 0, 0, 0⟩, 8⟩, .v4 ⟨⟨192, 168, 1, 0⟩, 24⟩, .v6 ⟨⟨0, 0, 0, 0, 0, 0, 0, 1⟩, 128⟩]
        (.v4 ⟨192, 168, 1, 5⟩) = true ∧
      has_address_list [] (.v4 ⟨192, 168, 1, 5⟩) = false :=
  ⟨membership_helper_short_circuit.2.1 [.v4 ⟨⟨10, 0, 0, 0⟩, 8⟩] (.v4 ⟨⟨192, 168, 1, 0⟩, 24⟩)
      [.v6 ⟨⟨0, 0, 0, 0, 0, 0, 0, 1⟩, 128⟩] (.v4 ⟨192, 168, 1, 5⟩) (by decide) (by decide),
    membership_helper_short_circuit.1 (.v4 ⟨192, 168, 1, 5⟩)⟩

/-- C10: a failed parse leaves the caller's output value untouched — the
family-level extraction assigns only after the whole grammar was read, and
the union extraction assigns only in a succeeding branch. -/
theorem failed_parse_leaves_value_unchanged :
    (∀ (α : Type) (fam : AddrFamily α) (is : IStream) (v : base_ip_network_address α),
        (read_base_ip_network_address fam is v).1.fail = true →
          (read_base_ip_network_address fam is v).2 = v) ∧
      (∀ (is : IStream) (v : ip_network_address),
        (read_base_ip_network_address famV6 is null_v6).1.fail = true →
          (read_base_ip_network_address famV4
              ((read_base_ip_network_address famV6 is null_v6).1.clear) null_v4).1.fail = true →
            (read_ip_network_address is v).2 = v) := by
  constructor
  · intro α fam is v h
    exact read_base_fail_value fam is v h
  · intro is v h6 h4
    rcases hr6 : read_base_ip_network_address famV6 is null_v6 with ⟨is1, ina6⟩
    simp only [hr6] at h6 h4
    rcases hr4 : read_base_ip_network_address famV4 is1.clear null_v4 with ⟨is3, ina4⟩
    simp only [hr4] at h4
    have ht6 : is1.toBool = false := by simp [IStream.toBool, h6]
    have hc2 : is1.clear.toBool = true := by simp [IStream.clear, IStream.toBool]
    have ht4 : is3.toBool = false := by simp [IStream.toBool, h4]
    by_cases hb : is.toBool = true
    · simp [read_ip_network_address, hb, hr6, ht6, hc2, hr4, ht4]
    · simp [read_ip_network_address, hb]

/-- Witness for C10 at failing family-level and union-level inputs. -/
theorem failed_parse_leaves_value_unchanged_witness :
    (read_base_ip_network_address famV4 (mkStream ("10.0.0.1".toList))
        ⟨⟨1, 2, 3, 4⟩, 9⟩).2 = ⟨⟨1, 2, 3, 4⟩, 9⟩ ∧
      (read_ip_network_address (mkStream ("abc".toList))
        (.v4 ⟨⟨1, 2, 3, 4⟩, 9⟩)).2 = .v4 ⟨⟨1, 2, 3, 4⟩, 9⟩ :=
  ⟨failed_parse_leaves_value_unchanged.1 address_v4 famV4 (mkStream ("10.0.0.1".toList))
      ⟨⟨1, 2, 3, 4⟩, 9⟩ (by decide),
    failed_parse_leaves_value_unchanged.2 (mkStream ("abc".toList))
      (.v4 ⟨⟨1, 2, 3, 4⟩, 9⟩) (by decide) (by decide)⟩

end Freelan
